import Mathlib

/-!
Verification of `sphinxcontrib/versioning/routines.py`.

This file shallowly embeds the three pipeline stages of the module —
`gather_git_info`, `pre_build` and `build_all` — as executable Lean
definitions and proves the specified properties about them.  External
collaborators (`list_remote`, `filter_and_date`, `fetch_commits`,
`read_config`, `build`, `re.search`, `os.utime`) are modelled as oracle
parameters, exactly as the specification treats them: black boxes with
contracts.  Loops that Python runs by mutation are embedded as structural
recursions threading the mutated state; the two loops whose termination is
not structural (`while root_dir in existing` and the restart loop of
`build_all`) run on explicitly sufficient fuel, and lemmas below show the
fuel never runs out, so the embeddings agree with the source loops.
-/

namespace SCV

/-! ## Data model -/

/-- One remote record of the Version Registry (`versions.remotes` entries).
Fields mirror the dict keys used by `routines.py`; `found_docs` and
`master_doc` are `Option` because they are unset until the Config Prober
runs (`remote['found_docs'] = ...`). -/
structure Remote where
  sha : String
  name : String
  kind : String
  date : Nat
  conf_rel_path : String
  root_dir : String
  found_docs : Option (List String)
  master_doc : Option String
deriving DecidableEq, Repr

/-- A `(sha, name, kind)` triple as returned by `list_remote` and as passed
in `override_refs`. -/
structure Ref where
  sha : String
  name : String
  kind : String
deriving DecidableEq, Repr

/-- A filtered remote `[sha, name, kind] + dates_paths[sha]`, i.e. the
5-tuples `(sha, name, kind, date, conf_rel_path)` that `gather_git_info`
returns. -/
structure FRemote where
  sha : String
  name : String
  kind : String
  date : Nat
  conf_rel_path : String
deriving DecidableEq, Repr

/-! ## Small list operations mirroring Python idioms -/

/-- Python `list.remove(x)` / `l.pop(l.index(x))` / `del l[l.index(x)]`: remove the
first occurrence of an element from a list. -/
def eraseFirst {α : Type} [DecidableEq α] : List α → α → List α
  | [], _ => []
  | x :: xs, a => if x = a then xs else x :: eraseFirst xs a

/-- In-place mutation of the (first) list element equal to `a`, replacing it
by `b`; models Python mutating one record object held in a list of distinct
records. -/
def replaceFirst {α : Type} [DecidableEq α] : List α → α → α → List α
  | [], _, _ => []
  | x :: xs, a, b => if x = a then b :: xs else x :: replaceFirst xs a b

/-- Number of occurrences of an element in a list. -/
def countOcc {α : Type} [DecidableEq α] : List α → α → Nat
  | [], _ => 0
  | x :: xs, a => (if x = a then 1 else 0) + countOcc xs a

/-! ## Ref Discovery: `gather_git_info` (lines 39-110)

`list_remote` is an oracle: its output is the `listedRemotes` argument.
`filter_and_date` is an oracle: the merged mapping it returns is the
`datesPaths` argument (`none` models "sha not in dates_paths").
`re.search` is an oracle: the `search` argument (pattern, name). -/

/-- The inner loop of the override block (lines 66-71): scan the pending
override list for the first override whose `name` equals the remote's name;
if found, return it (it replaces `remotes[ri]`) together with the pending
list with it deleted, else return the remote unchanged and the pending list
unchanged. -/
def applyOverride (r : Ref) : List Ref → Ref × List Ref
  | [] => (r, [])
  | o :: os =>
      if r.name = o.name then (o, os)
      else
        match applyOverride r os with
        | (r2, os2) => (r2, o :: os2)

/-- The outer loop of the override block (lines 64-71): walk the listed
remotes in order, replacing each by its matching pending override (if any)
and consuming that override. Returns the rewritten remotes and the
left-over overrides. -/
def applyOverridesGo : List Ref → List Ref → List Ref × List Ref
  | [], ovr => ([], ovr)
  | r :: rs, ovr =>
      match applyOverride r ovr with
      | (r2, ovr2) =>
          match applyOverridesGo rs ovr2 with
          | (rs2, ovr3) => (r2 :: rs2, ovr3)

/-- Lines 64-72: apply the overrides, then `remotes.extend(override_refs)`
with whatever overrides were not consumed. -/
def applyOverrides (remotes overrideRefs : List Ref) : List Ref :=
  match applyOverridesGo remotes overrideRefs with
  | (rs, leftover) => rs ++ leftover

/-- First override (in list order) whose name is `n`.  Used to state what
`applyOverrides` computes. -/
def findOverride (n : String) : List Ref → Option Ref
  | [] => none
  | o :: os => if n = o.name then some o else findOverride n os

/-- Remove the first override whose name is `n` (if any). -/
def removeOverride (n : String) : List Ref → List Ref
  | [] => []
  | o :: os => if n = o.name then os else o :: removeOverride n os

/-- The record a listed remote ends up as after the override pass: the first
override sharing its name, or itself. -/
def pickOverride (ovr : List Ref) (r : Ref) : Ref :=
  (findOverride r.name ovr).getD r

/-- Line 93: `[[i[0], i[1], i[2]] + dates_paths[i[0]] for i in remotes if
i[0] in dates_paths]` — keep only remotes whose sha is in the
`filter_and_date` result, appending that sha's date and conf path. -/
def datedRemotes (datesPaths : String → Option (Nat × String)) (remotes : List Ref) :
    List FRemote :=
  remotes.filterMap (fun r =>
    match datesPaths r.sha with
    | none => none
    | some dp => some (FRemote.mk r.sha r.name r.kind dp.1 dp.2))

/-- The whitelist loop (lines 99-107): skip a `heads` record when the branch
whitelist is non-empty and no branch pattern matches, skip a `tags` record
when the tag whitelist is non-empty and no tag pattern matches, keep
everything else. -/
def whitelistLoop (search : String → String → Bool) (wb wt : List String) :
    List FRemote → List FRemote
  | [] => []
  | r :: rest =>
      if r.kind == "heads" && !wb.isEmpty && !(wb.any (fun p => search p r.name)) then
        whitelistLoop search wb wt rest
      else if r.kind == "tags" && !wt.isEmpty && !(wt.any (fun p => search p r.name)) then
        whitelistLoop search wb wt rest
      else r :: whitelistLoop search wb wt rest

/-- The specification's keep-rule for the whitelist step: a `heads` record
is kept iff the branch whitelist is empty or some branch pattern matches,
a `tags` record iff the tag whitelist is empty or some tag pattern matches
(and records of any other kind are untouched by whitelisting). -/
def keepBySpec (search : String → String → Bool) (wb wt : List String) (r : FRemote) : Bool :=
  (if r.kind == "heads" then wb.isEmpty || wb.any (fun p => search p r.name) else true) &&
  (if r.kind == "tags" then wt.isEmpty || wt.any (fun p => search p r.name) else true)

/-- Function `gather_git_info` after the `filter_and_date` call succeeded (lines
63-110): apply overrides, keep sha-qualifying records with their dates, and
apply the whitelists when at least one of them is non-empty. -/
def gatherGitInfo (search : String → String → Bool)
    (datesPaths : String → Option (Nat × String))
    (listedRemotes overrideRefs : List Ref) (wb wt : List String) : List FRemote :=
  let remotes := applyOverrides listedRemotes overrideRefs
  let filteredRemotes := datedRemotes datesPaths remotes
  if wb.isEmpty && wt.isEmpty then filteredRemotes
  else whitelistLoop search wb wt filteredRemotes

/-- Does `pre` occur at the head of `l`? (character-list version of a string
prefix test, used only by the `re.search` model below). -/
def hasPrefixChars : List Char → List Char → Bool
  | [], _ => true
  | _ :: _, [] => false
  | c :: cs, d :: ds => c == d && hasPrefixChars cs ds

/-- Does `needle` occur contiguously anywhere in `hay`? -/
def hasSubstring : List Char → List Char → Bool
  | needle, [] => hasPrefixChars needle []
  | needle, d :: ds => hasPrefixChars needle (d :: ds) || hasSubstring needle ds

/-- Modelled from the spec: `re.search(pattern, name)` for the
metacharacter-free patterns exercised here, optionally anchored with a
leading `^`.  An anchored pattern matches iff the rest of it is a prefix of
the name; an unanchored pattern matches iff it occurs as a substring
(search, not full match). -/
def reSearch (pat name : String) : Bool :=
  match pat.toList with
  | '^' :: rest => hasPrefixChars rest name.toList
  | cs => hasSubstring cs name.toList

/-- Outcome of one `filter_and_date` call: a result mapping, or a raised
`GitError`. -/
inductive FadResult (α : Type) where
  | ok (val : α)
  | gitError
deriving DecidableEq, Repr

/-- Outcome of the guarded `filter_and_date` block of `gather_git_info`
(lines 77-92): a mapping, the logged-and-raised `HandledError`, or a
failure of the intermediate `fetch_commits` call (which `gather_git_info`
does not catch). -/
inductive StageResult (α : Type) where
  | ok (val : α)
  | handledError
  | fetchFailed
deriving DecidableEq, Repr

/-- Lines 77-92 of `gather_git_info`: call `filter_and_date`; on `GitError`
fetch the missing commits and call it a second time; on a second `GitError`
log and raise `HandledError`.  The successive `filter_and_date` call
outcomes are the oracle `attempts` (call number `n` yields `attempts n`);
`fetchOk` is the `fetch_commits` oracle. -/
def retryStage {α : Type} (attempts : Nat → FadResult α) (fetchOk : Bool) : StageResult α :=
  match attempts 0 with
  | FadResult.ok d => StageResult.ok d
  | FadResult.gitError =>
      if fetchOk then
        match attempts 1 with
        | FadResult.ok d => StageResult.ok d
        | FadResult.gitError => StageResult.handledError
      else StageResult.fetchFailed

/-! ## Worktree Materializer: timestamp repair (`pre_build`, lines 144-187)

`git ls-files -z` output is the `files` component of the initial state;
`git whatchanged --pretty=format:%ct` output is the list of already split
lines; `os.utime` calls are logged in the `utimes` trace. -/

/-- Constant `symlink_mode = 0o120000`. -/
def symlinkMode : Nat := 40960

/-- One parsed line of `git whatchanged --pretty=format:%ct` output, after
the source's `strip`/`startswith(':')` dispatch and field split: a blank
line, a commit timestamp line, or a change record (modes, optional old
filename for renames, new filename). -/
inductive WcLine where
  | blank
  | ts (t : Nat)
  | change (oldMode newMode : Nat) (oldFilename : Option String) (newFilename : String)
deriving DecidableEq, Repr

/-- Mutable state of the timestamp-repair loop: the pending `files` list,
the trace of performed `os.utime(path, (mtime, mtime))` calls, and the
current `mtime` variable (initialised to 0 at line 151). -/
structure TsState where
  files : List String
  utimes : List (String × Nat)
  mtime : Nat
deriving DecidableEq, Repr

/-- Body of the `for line in whatchanged.stdout` loop (lines 152-183),
without the `if not files: break` header. `supports` models
`os.utime in os.supports_follow_symlinks`. -/
def tsStep (supports : Bool) (st : TsState) : WcLine → TsState
  | WcLine.blank => st
  | WcLine.ts t => TsState.mk st.files st.utimes t
  | WcLine.change _ newMode _ newFilename =>
      if newFilename ∈ st.files then
        TsState.mk (eraseFirst st.files newFilename)
          (if newMode = symlinkMode then
            (if supports then st.utimes ++ [(newFilename, st.mtime)] else st.utimes)
          else st.utimes ++ [(newFilename, st.mtime)])
          st.mtime
      else st

/-- The whole loop: process lines in order, stopping as soon as the pending
`files` list is empty. -/
def tsRun (supports : Bool) : TsState → List WcLine → TsState
  | st, [] => st
  | st, l :: rest =>
      if st.files.isEmpty then st else tsRun supports (tsStep supports st l) rest

/-- Specification-side reading of the stream: the timestamp in force at the
first line whose change record touches `f` (history is newest-first, so
this is the most recent commit touching `f`), together with that change's
new mode; `cur` is the timestamp seen so far (0 initially). -/
def firstTouch (f : String) : Nat → List WcLine → Option (Nat × Nat)
  | _, [] => none
  | cur, WcLine.blank :: rest => firstTouch f cur rest
  | _, WcLine.ts t :: rest => firstTouch f t rest
  | cur, WcLine.change _ nm _ nf :: rest =>
      if nf = f then some (cur, nm) else firstTouch f cur rest

/-! ## Root/Collision Resolver (`pre_build`, lines 189-204) -/

/-- Pattern `RE_INVALID_FILENAME = re.compile(r'[^0-9A-Za-z.-]')`: true iff the
character is outside `[0-9A-Za-z.-]`.  `Char.isAlphanum` is exactly
`[0-9A-Za-z]`. -/
def invalidFilenameChar (c : Char) : Bool :=
  !(c.isAlphanum || c == '.' || c == '-')

/-- Substitution `RE_INVALID_FILENAME.sub('_', name)`. -/
def sanitizeName (name : String) : String :=
  String.mk (name.toList.map (fun c => if invalidFilenameChar c then '_' else c))

/-- Length of the longest string in a list (0 for the empty list); used only
to bound the collision-resolution loop. -/
def maxLen (l : List String) : Nat :=
  l.foldr (fun s m => max s.length m) 0

/-- Loop `while root_dir in existing: root_dir += '_'`, run on structural fuel.
The fuel `maxLen existing + 1 - candidate.length` provably suffices: once
the candidate is longer than every element of `existing` it cannot be a
member, so the loop has already stopped.  `resolveCollisionAux_not_mem`
below shows the returned name is collision-free even in the fuel-zero case,
hence the fueled function agrees with the source's `while` loop. -/
def resolveCollisionAux (existing : List String) : Nat → String → String
  | 0, candidate => candidate
  | n + 1, candidate =>
      if candidate ∈ existing then resolveCollisionAux existing n (candidate ++ "_")
      else candidate

def resolveCollision (existing : List String) (candidate : String) : String :=
  resolveCollisionAux existing (maxLen existing + 1 - candidate.length) candidate

/-- The `root_dir`-assignment loop of `pre_build` (lines 198-204): walk the
registry in order; for each record sanitize its name, bump it with
underscores until it collides neither with the root build's listing nor
with an already assigned directory, store it in the record, and append it
to `existing`. -/
def assignRootDirs : List String → List Remote → List Remote
  | _, [] => []
  | existing, r :: rest =>
      let rd := resolveCollision existing (sanitizeName r.name)
      { r with root_dir := rd } :: assignRootDirs (existing ++ [rd]) rest

/-! ## Config Prober (`pre_build`, lines 206-217)

`read_config` is an oracle mapping a record to `some` configuration or
`none` for a raised (already handled and logged) `HandledError`. -/

/-- The two configuration values `pre_build` keeps. -/
structure SphinxCfg where
  found_docs : List String
  master_doc : String
deriving DecidableEq, Repr

/-- Lines 216-217: `remote['found_docs'] = config['found_docs']`,
`remote['master_doc'] = config['master_doc']`. -/
def setCfg (r : Remote) (c : SphinxCfg) : Remote :=
  { r with found_docs := some c.found_docs, master_doc := some c.master_doc }

/-- The config-probing loop (lines 207-217): iterate over a snapshot
(`list(versions.remotes)`) while mutating the live registry: a record whose
`read_config` raises is popped (`pop(index(remote))`); otherwise the record
object is updated in place, modelled as first-occurrence replacement. -/
def probeGo (readCfg : Remote → Option SphinxCfg) : List Remote → List Remote → List Remote
  | [], live => live
  | r :: rest, live =>
      match readCfg r with
      | none => probeGo readCfg rest (eraseFirst live r)
      | some c => probeGo readCfg rest (replaceFirst live r (setCfg r c))

def probeConfigs (readCfg : Remote → Option SphinxCfg) (registry : List Remote) : List Remote :=
  probeGo readCfg registry registry

/-! ## Build Orchestrator: `build_all` (lines 222-250)

`build` is the oracle `buildOk record isRoot` (true = success, false = a
raised `HandledError`); the trace of `build` invocations is returned so the
theorems can speak about what was built where.  The registry lookup
`versions[Config.from_context().root_ref]` is modelled from the spec:
lookup of the first record whose `name` is the configured root-ref name
(the `Versions` class itself is outside `routines.py`). -/

/-- Where one `build` call writes: `destination` itself, or
`os.path.join(destination, root_dir)`. -/
inductive BTarget where
  | dest
  | sub (dir : String)
deriving DecidableEq, Repr

/-- One `build(source, target, versions, name, is-root)` invocation. -/
structure BEvent where
  name : String
  target : BTarget
  isRoot : Bool
deriving DecidableEq, Repr

/-- How `build_all` can fail: an uncaught `HandledError` from the root
build, the (spec-modelled) lookup failure when the root ref is no longer in
the registry, or fuel exhaustion — an artifact of the embedding that is
provably unreachable from `buildAllGo` (`buildAllFuel_irrel` below). -/
inductive BErr where
  | handled
  | keyError
  | fuelExhausted
deriving DecidableEq, Repr

/-- Result of `build_all`: normal completion or a propagated error, in both
cases together with the registry as it stands at that point. -/
inductive BResult where
  | ok (registry : List Remote)
  | err (e : BErr) (registry : List Remote)
deriving DecidableEq, Repr

/-- Modelled from the spec: `versions[root_ref]` — the root record looked up
by the configured root-ref name (first record with that `name`). -/
def findByName : List Remote → String → Option Remote
  | [], _ => none
  | r :: rest, n => if r.name = n then some r else findByName rest n

/-- The non-root `build` invocation for a record:
`build(source, os.path.join(destination, remote['root_dir']), versions,
remote['name'], False)`. -/
def subEvent (r : Remote) : BEvent :=
  BEvent.mk r.name (BTarget.sub r.root_dir) false

/-- The inner `for remote in list(versions.remotes)` loop (lines 239-248):
build each snapshot record into `destination/root_dir`; on a failure pop
the record from the live registry and `break`.  Returns the `build` events,
the resulting live registry and whether the loop broke. -/
def sweepRefs (buildOk : Remote → Bool) : List Remote → List Remote → List BEvent × List Remote × Bool
  | [], live => ([], live, false)
  | r :: rest, live =>
      if buildOk r then
        match sweepRefs buildOk rest live with
        | (evs, live2, broke) => (subEvent r :: evs, live2, broke)
      else ([subEvent r], eraseFirst live r, true)

/-- The `while True` restart loop of `build_all` (lines 231-250), on
structural fuel: look up the root record, build it into `destination`
(an uncaught failure propagates), run the inner sweep, and restart when the
sweep broke.  Each restart shrinks the registry by one record, so fuel
`registry.length + 1` suffices (`buildAllFuel_irrel` below); the fuel-zero
branch is unreachable from `buildAllGo`. -/
def buildAllFuel (buildOk : Remote → Bool → Bool) (rootRef : String) :
    Nat → List Remote → List BEvent × BResult
  | 0, registry => ([], BResult.err BErr.fuelExhausted registry)
  | n + 1, registry =>
      match findByName registry rootRef with
      | none => ([], BResult.err BErr.keyError registry)
      | some root =>
          if buildOk root true then
            match sweepRefs (fun r => buildOk r false) registry registry with
            | (evs, live2, false) =>
                (BEvent.mk root.name BTarget.dest true :: evs, BResult.ok live2)
            | (evs, live2, true) =>
                match buildAllFuel buildOk rootRef n live2 with
                | (evs2, res) => (BEvent.mk root.name BTarget.dest true :: (evs ++ evs2), res)
          else ([BEvent.mk root.name BTarget.dest true], BResult.err BErr.handled registry)

/-- Function `build_all`: the restart loop with its provably sufficient fuel. -/
def buildAllGo (buildOk : Remote → Bool → Bool) (rootRef : String) (registry : List Remote) :
    List BEvent × BResult :=
  buildAllFuel buildOk rootRef (registry.length + 1) registry

/-! ## Concrete fixtures used by witnesses and counterexamples -/

/-- A registry record with the probe fields still unset. -/
def mkRemote (sha name kind : String) (date : Nat) (crp rd : String) : Remote :=
  Remote.mk sha name kind date crp rd none none

def rootRec : Remote := mkRemote "aaa" "master" "heads" 300 "docs/conf.py" "master"
def v1Rec : Remote := mkRemote "bbb" "v1" "tags" 100 "docs/conf.py" "v1"
def v2Rec : Remote := mkRemote "ccc" "v2" "tags" 200 "docs/conf.py" "v2"
def v3Rec : Remote := mkRemote "ddd" "v3" "tags" 250 "docs/conf.py" "v3"

/-- Build oracle where every build succeeds. -/
def buildOkAll : Remote → Bool → Bool := fun _ _ => true

/-- Build oracle where only non-root builds of `v2` fail. -/
def buildOkNoV2 : Remote → Bool → Bool := fun r isRoot => isRoot || !(r.name == "v2")

/-- Build oracle where the root build (is-root flag set) fails. -/
def buildOkRootFails : Remote → Bool → Bool := fun _ isRoot => !isRoot

/-! # Theorems -/

/-! ## List helper lemmas -/

theorem eraseFirst_length_lt {α : Type} [DecidableEq α] :
    ∀ (l : List α) (a : α), a ∈ l → (eraseFirst l a).length < l.length := by
  intro l a
  induction l with
  | nil => intro h; cases h
  | cons x xs ih =>
    intro h
    by_cases hx : x = a
    · simp [eraseFirst, hx]
    · rcases List.mem_cons.mp h with h | h
      · exact absurd h.symm hx
      · simp only [eraseFirst, if_neg hx, List.length_cons]
        exact Nat.succ_lt_succ (ih h)

theorem eraseFirst_append_left {α : Type} [DecidableEq α] (l₁ l₂ : List α) (a : α)
    (h : a ∉ l₁) : eraseFirst (l₁ ++ l₂) a = l₁ ++ eraseFirst l₂ a := by
  induction l₁ with
  | nil => simp [eraseFirst]
  | cons x xs ih =>
    have hxa : x ≠ a := fun he => h (he ▸ List.mem_cons_self x xs)
    have hxs : a ∉ xs := fun hm => h (List.mem_cons_of_mem x hm)
    simp [eraseFirst, hxa, ih hxs]

theorem eraseFirst_cons_self {α : Type} [DecidableEq α] (l : List α) (a : α) :
    eraseFirst (a :: l) a = l := by
  simp [eraseFirst]

theorem replaceFirst_append_left {α : Type} [DecidableEq α] (l₁ l₂ : List α) (a b : α)
    (h : a ∉ l₁) : replaceFirst (l₁ ++ l₂) a b = l₁ ++ replaceFirst l₂ a b := by
  induction l₁ with
  | nil => simp [replaceFirst]
  | cons x xs ih =>
    have hxa : x ≠ a := fun he => h (he ▸ List.mem_cons_self x xs)
    have hxs : a ∉ xs := fun hm => h (List.mem_cons_of_mem x hm)
    simp [replaceFirst, hxa, ih hxs]

theorem replaceFirst_cons_self {α : Type} [DecidableEq α] (l : List α) (a b : α) :
    replaceFirst (a :: l) a b = b :: l := by
  simp [replaceFirst]

theorem mem_of_mem_eraseFirst {α : Type} [DecidableEq α] :
    ∀ (l : List α) (a b : α), b ∈ eraseFirst l a → b ∈ l := by
  intro l a b
  induction l with
  | nil => intro h; simp [eraseFirst] at h
  | cons x xs ih =>
    intro h
    by_cases hx : x = a
    · rw [eraseFirst, if_pos hx] at h
      exact List.mem_cons_of_mem x h
    · rw [eraseFirst, if_neg hx] at h
      rcases List.mem_cons.mp h with h | h
      · exact h ▸ List.mem_cons_self x xs
      · exact List.mem_cons_of_mem x (ih h)

theorem not_mem_eraseFirst {α : Type} [DecidableEq α] (l : List α) (a b : α)
    (h : b ∉ l) : b ∉ eraseFirst l a :=
  fun hm => h (mem_of_mem_eraseFirst l a b hm)

theorem countOcc_eraseFirst_self {α : Type} [DecidableEq α] :
    ∀ (l : List α) (a : α), a ∈ l → countOcc (eraseFirst l a) a + 1 = countOcc l a := by
  intro l a
  induction l with
  | nil => intro h; cases h
  | cons x xs ih =>
    intro h
    by_cases hx : x = a
    · simp [eraseFirst, countOcc, hx]
      omega
    · have hmem : a ∈ xs := by
        rcases List.mem_cons.mp h with h | h
        · exact absurd h.symm hx
        · exact h
      simp only [eraseFirst, if_neg hx, countOcc]
      rw [← ih hmem]
      omega

theorem countOcc_eraseFirst_ne {α : Type} [DecidableEq α] :
    ∀ (l : List α) (a b : α), b ≠ a → countOcc (eraseFirst l a) b = countOcc l b := by
  intro l a b hne
  induction l with
  | nil => simp [eraseFirst]
  | cons x xs ih =>
    by_cases hx : x = a
    · have hxb : ¬ x = b := fun h => hne (h.symm.trans hx)
      rw [eraseFirst, if_pos hx, countOcc, if_neg hxb, Nat.zero_add]
    · simp [eraseFirst, hx, countOcc, ih]

theorem countOcc_eq_zero_iff {α : Type} [DecidableEq α] :
    ∀ (l : List α) (a : α), countOcc l a = 0 ↔ a ∉ l := by
  intro l a
  induction l with
  | nil => simp [countOcc]
  | cons x xs ih =>
    by_cases hx : x = a
    · simp [countOcc, hx]
    · have hax : ¬ a = x := fun h => hx h.symm
      simp [countOcc, hx, ih, hax]

theorem mem_of_countOcc_one {α : Type} [DecidableEq α] (l : List α) (a : α)
    (h : countOcc l a = 1) : a ∈ l := by
  by_contra hm
  rw [← countOcc_eq_zero_iff l a] at hm
  omega

/-! ## Root/Collision Resolver lemmas and claim C1 -/

theorem length_le_maxLen {s : String} : ∀ {l : List String}, s ∈ l → s.length ≤ maxLen l := by
  intro l
  induction l with
  | nil => intro h; cases h
  | cons x xs ih =>
    intro h
    rcases List.mem_cons.mp h with h | h
    · exact h ▸ Nat.le_max_left _ _
    · exact Nat.le_trans (ih h) (Nat.le_max_right _ _)

theorem resolveCollisionAux_not_mem (existing : List String) :
    ∀ (n : Nat) (c : String), maxLen existing + 1 - c.length ≤ n →
      resolveCollisionAux existing n c ∉ existing := by
  intro n
  induction n with
  | zero =>
    intro c hc hmem
    rw [resolveCollisionAux] at hmem
    have := length_le_maxLen hmem
    omega
  | succ n ih =>
    intro c hc
    rw [resolveCollisionAux]
    by_cases hmem : c ∈ existing
    · rw [if_pos hmem]
      have hlen : c.length ≤ maxLen existing := length_le_maxLen hmem
      have hlen' : (c ++ "_").length = c.length + 1 := by
        have h1 : "_".length = 1 := by decide
        rw [String.length_append, h1]
      exact ih (c ++ "_") (by omega)
    · rw [if_neg hmem]; exact hmem

theorem resolveCollision_not_mem (existing : List String) (c : String) :
    resolveCollision existing c ∉ existing :=
  resolveCollisionAux_not_mem existing _ c (Nat.le_refl _)

theorem assignRootDirs_not_mem_existing :
    ∀ (registry : List Remote) (ex : List String) (d : String),
      d ∈ (assignRootDirs ex registry).map Remote.root_dir → d ∉ ex := by
  intro registry
  induction registry with
  | nil => intro ex d h; simp [assignRootDirs] at h
  | cons r rest ih =>
    intro ex d h
    rw [assignRootDirs] at h
    rcases List.mem_cons.mp h with h | h
    · exact h ▸ resolveCollision_not_mem ex (sanitizeName r.name)
    · intro hd
      exact ih (ex ++ [resolveCollision ex (sanitizeName r.name)]) d h
        (List.mem_append_left _ hd)

theorem assignRootDirs_nodup :
    ∀ (registry : List Remote) (ex : List String),
      ((assignRootDirs ex registry).map Remote.root_dir).Nodup := by
  intro registry
  induction registry with
  | nil => intro ex; simp [assignRootDirs]
  | cons r rest ih =>
    intro ex
    rw [assignRootDirs]
    simp only [List.map_cons, List.nodup_cons]
    constructor
    · intro hmem
      exact assignRootDirs_not_mem_existing rest _ _ hmem
        (List.mem_append_right ex (List.mem_singleton.mpr rfl))
    · exact ih _

/-- C1.  After the collision-resolution loop of `pre_build` completes on any
registry, the assigned `root_dir` values are pairwise distinct across all
records, and none of them equals any filename in the directory listing
produced by the throwaway root build. -/
theorem pre_build_root_dirs_collision_free (listing : List String) (registry : List Remote) :
    ((assignRootDirs listing registry).map Remote.root_dir).Nodup ∧
    ((assignRootDirs listing registry).map Remote.root_dir).all
      (fun d => !(listing.contains d)) = true := by
  constructor
  · exact assignRootDirs_nodup registry listing
  · rw [List.all_eq_true]
    intro d hd
    have := assignRootDirs_not_mem_existing registry listing d hd
    simp [List.contains, this]

/-! ## Ref Discovery: override application (claim C5) -/

theorem applyOverride_eq (r : Ref) :
    ∀ ovr : List Ref, applyOverride r ovr = (pickOverride ovr r, removeOverride r.name ovr) := by
  intro ovr
  induction ovr with
  | nil => rfl
  | cons o os ih =>
    by_cases hro : r.name = o.name
    · simp [applyOverride, pickOverride, findOverride, removeOverride, hro]
    · simp only [applyOverride, pickOverride, findOverride, removeOverride, if_neg hro, ih]

theorem findOverride_removeOverride (n m : String) (hnm : n ≠ m) :
    ∀ ovr : List Ref, findOverride n (removeOverride m ovr) = findOverride n ovr := by
  intro ovr
  induction ovr with
  | nil => rfl
  | cons o os ih =>
    by_cases hm : m = o.name
    · have hn : ¬ n = o.name := fun h => hnm (h.trans hm.symm)
      rw [removeOverride, if_pos hm, findOverride, if_neg hn]
    · by_cases hn : n = o.name
      · rw [removeOverride, if_neg hm, findOverride, if_pos hn, findOverride, if_pos hn]
      · rw [removeOverride, if_neg hm, findOverride, if_neg hn, findOverride, if_neg hn, ih]

theorem removeOverride_sublist (n : String) :
    ∀ ovr : List Ref, List.Sublist (removeOverride n ovr) ovr := by
  intro ovr
  induction ovr with
  | nil => exact List.Sublist.refl _
  | cons o os ih =>
    by_cases hm : n = o.name
    · rw [removeOverride, if_pos hm]
      exact List.sublist_cons_self o os
    · rw [removeOverride, if_neg hm]
      exact List.Sublist.cons₂ o ih

theorem removeOverride_nodup {n : String} {ovr : List Ref}
    (h : (ovr.map Ref.name).Nodup) : ((removeOverride n ovr).map Ref.name).Nodup :=
  List.Nodup.sublist (List.Sublist.map Ref.name (removeOverride_sublist n ovr)) h

theorem removeOverride_filter (n : String) (p : Ref → Bool) :
    ∀ ovr : List Ref, (ovr.map Ref.name).Nodup →
      (removeOverride n ovr).filter p = ovr.filter (fun o => !(n == o.name) && p o) := by
  intro ovr
  induction ovr with
  | nil => intro _; rfl
  | cons o os ih =>
    intro hnodup
    rw [List.map_cons, List.nodup_cons] at hnodup
    by_cases hm : n = o.name
    · rw [removeOverride, if_pos hm]
      have hbeq : (n == o.name) = true := beq_iff_eq.mpr hm
      rw [List.filter_cons, hbeq]
      simp only [Bool.not_true, Bool.false_and, Bool.false_eq_true, if_neg, ite_false]
      refine List.filter_congr ?_
      intro x hx
      have hxn : ¬ n = x.name := by
        intro he
        have hmem : x.name ∈ os.map Ref.name := List.mem_map_of_mem Ref.name hx
        rw [← he, hm] at hmem
        exact hnodup.1 hmem
      have hb : (n == x.name) = false := beq_eq_false_iff_ne.mpr hxn
      rw [hb]
      simp
    · rw [removeOverride, if_neg hm]
      have hbeq : (n == o.name) = false := beq_eq_false_iff_ne.mpr hm
      rw [List.filter_cons, List.filter_cons, hbeq, ih hnodup.2]
      simp

theorem applyOverridesGo_eq :
    ∀ (remotes ovr : List Ref),
      (remotes.map Ref.name).Nodup → (ovr.map Ref.name).Nodup →
      applyOverridesGo remotes ovr =
        (remotes.map (pickOverride ovr),
         ovr.filter (fun o => !(remotes.any (fun rr => rr.name == o.name)))) := by
  intro remotes
  induction remotes with
  | nil =>
    intro ovr _ _
    simp [applyOverridesGo]
  | cons r rs ih =>
    intro ovr hrem hovr
    rw [List.map_cons, List.nodup_cons] at hrem
    have hmap : rs.map (pickOverride (removeOverride r.name ovr)) = rs.map (pickOverride ovr) := by
      refine List.map_congr_left ?_
      intro x hx
      have hxr : x.name ≠ r.name := by
        intro he
        have hmem : x.name ∈ rs.map Ref.name := List.mem_map_of_mem Ref.name hx
        rw [he] at hmem
        exact hrem.1 hmem
      unfold pickOverride
      rw [findOverride_removeOverride x.name r.name hxr]
    have hfil : (removeOverride r.name ovr).filter (fun o => !(rs.any (fun rr => rr.name == o.name)))
        = ovr.filter (fun o => !((r :: rs).any (fun rr => rr.name == o.name))) := by
      rw [removeOverride_filter r.name _ ovr hovr]
      refine List.filter_congr ?_
      intro x _
      simp [Bool.not_or]
    have hih := ih (removeOverride r.name ovr) hrem.2 (removeOverride_nodup hovr)
    simp only [applyOverridesGo, applyOverride_eq r ovr, hih, hmap, hfil, List.map_cons]

/-- C5.  In `gather_git_info`, for every override triple: if a listed remote
ref has the same name, that ref's entry is replaced in place by the
override (the output lists, at each listed position, the first pending
override sharing that ref's name, or the ref itself), and every override
whose name matches no listed ref is appended as a new entry, in order.
Stated for well-formed inputs where ref names are unique on each side. -/
theorem gather_overrides_replace_or_append (remotes overrideRefs : List Ref)
    (hrem : (remotes.map Ref.name).Nodup) (hovr : (overrideRefs.map Ref.name).Nodup) :
    applyOverrides remotes overrideRefs =
      remotes.map (pickOverride overrideRefs) ++
      overrideRefs.filter (fun o => !(remotes.any (fun rr => rr.name == o.name))) := by
  rw [applyOverrides, applyOverridesGo_eq remotes overrideRefs hrem hovr]

/-- Witness for C5, the spec's own example: a discovered ref
`(sha1, "v1", heads)` with override `(sha2, "v1", heads)` yields exactly
`[(sha2, "v1", heads)]`. -/
theorem gather_overrides_replace_or_append_witness :
    ([Ref.mk "sha1" "v1" "heads"].map Ref.name).Nodup ∧
    ([Ref.mk "sha2" "v1" "heads"].map Ref.name).Nodup ∧
    applyOverrides [Ref.mk "sha1" "v1" "heads"] [Ref.mk "sha2" "v1" "heads"] =
      [Ref.mk "sha1" "v1" "heads"].map (pickOverride [Ref.mk "sha2" "v1" "heads"]) ++
      [Ref.mk "sha2" "v1" "heads"].filter
        (fun o => !([Ref.mk "sha1" "v1" "heads"].any (fun rr => rr.name == o.name))) ∧
    applyOverrides [Ref.mk "sha1" "v1" "heads"] [Ref.mk "sha2" "v1" "heads"] =
      [Ref.mk "sha2" "v1" "heads"] :=
  ⟨by decide, by decide,
   gather_overrides_replace_or_append _ _ (by decide) (by decide), by decide⟩

/-! ## Ref Discovery: whitelist step (claim C6) -/

theorem keepBySpec_eq_not_skip (search : String → String → Bool) (wb wt : List String)
    (r : FRemote) :
    keepBySpec search wb wt r =
      (!(r.kind == "heads" && !wb.isEmpty && !(wb.any (fun p => search p r.name))) &&
       !(r.kind == "tags" && !wt.isEmpty && !(wt.any (fun p => search p r.name)))) := by
  unfold keepBySpec
  by_cases hh : (r.kind == "heads") = true
  · have heq : r.kind = "heads" := by simpa using hh
    have ht : (r.kind == "tags") = false := by simp [heq]
    simp only [hh, ht]
    cases wb.isEmpty <;> cases wb.any (fun p => search p r.name) <;> simp
  · have hh' : (r.kind == "heads") = false := by simpa using hh
    by_cases htg : (r.kind == "tags") = true
    · simp only [hh', htg]
      cases wt.isEmpty <;> cases wt.any (fun p => search p r.name) <;> simp
    · have ht' : (r.kind == "tags") = false := by simpa using htg
      simp [hh', ht']

theorem whitelistLoop_eq_filter (search : String → String → Bool) (wb wt : List String) :
    ∀ rs : List FRemote, whitelistLoop search wb wt rs = rs.filter (keepBySpec search wb wt) := by
  intro rs
  induction rs with
  | nil => rfl
  | cons r rest ih =>
    simp only [whitelistLoop, ih, List.filter_cons, keepBySpec_eq_not_skip]
    cases hc1 : (r.kind == "heads" && !wb.isEmpty && !(wb.any (fun p => search p r.name))) <;>
      cases hc2 : (r.kind == "tags" && !wt.isEmpty && !(wt.any (fun p => search p r.name))) <;>
      simp [hc1, hc2]

/-- C6.  In `gather_git_info`'s whitelist step, whenever at least one
whitelist is non-empty, the output is exactly the docs-filtered record list
filtered by: a `heads` record is kept iff the branch whitelist is empty or
some branch pattern matches its name, and a `tags` record is kept iff the
tag whitelist is empty or some tag pattern matches its name. -/
theorem gather_whitelist_filters_by_kind (search : String → String → Bool)
    (datesPaths : String → Option (Nat × String)) (listedRemotes overrideRefs : List Ref)
    (wb wt : List String) (h : wb ≠ [] ∨ wt ≠ []) :
    gatherGitInfo search datesPaths listedRemotes overrideRefs wb wt =
      (datedRemotes datesPaths (applyOverrides listedRemotes overrideRefs)).filter
        (keepBySpec search wb wt) := by
  have hcond : (wb.isEmpty && wt.isEmpty) = false := by
    rcases h with h | h
    · have hwb : wb.isEmpty = false := by
        cases wb with
        | nil => exact absurd rfl h
        | cons a l => rfl
      simp [hwb]
    · have hwt : wt.isEmpty = false := by
        cases wt with
        | nil => exact absurd rfl h
        | cons a l => rfl
      simp [hwt]
  simp only [gatherGitInfo, hcond, Bool.false_eq_true, if_false]
  exact whitelistLoop_eq_filter search wb wt _

def c6Remotes : List Ref :=
  [Ref.mk "s1" "main" "heads", Ref.mk "s2" "dev" "heads", Ref.mk "s3" "release-1" "heads",
   Ref.mk "s4" "v1.0" "tags", Ref.mk "s5" "v2.0" "tags"]

def c6Dates : String → Option (Nat × String) := fun _ => some (0, "docs/conf.py")

/-- Witness for C6, the spec's own example: branches `main`, `dev`,
`release-1` and tags `v1.0`, `v2.0` with branch pattern `^release-` and tag
pattern `^v2` yield exactly `["release-1", "v2.0"]`. -/
theorem gather_whitelist_filters_by_kind_witness :
    ((["^release-"] : List String) ≠ [] ∨ (["^v2"] : List String) ≠ []) ∧
    gatherGitInfo reSearch c6Dates c6Remotes [] ["^release-"] ["^v2"] =
      (datedRemotes c6Dates (applyOverrides c6Remotes [])).filter
        (keepBySpec reSearch ["^release-"] ["^v2"]) ∧
    (gatherGitInfo reSearch c6Dates c6Remotes [] ["^release-"] ["^v2"]).map FRemote.name =
      ["release-1", "v2.0"] :=
  ⟨Or.inl (by decide),
   gather_whitelist_filters_by_kind reSearch c6Dates c6Remotes [] _ _ (Or.inl (by decide)),
   by decide⟩

/-! ## Ref Discovery: docs filter and date enrichment (claim C7) -/

theorem mem_datedRemotes_dates {datesPaths : String → Option (Nat × String)}
    {rs : List Ref} {rec : FRemote} (h : rec ∈ datedRemotes datesPaths rs) :
    datesPaths rec.sha = some (rec.date, rec.conf_rel_path) := by
  rw [datedRemotes] at h
  rcases List.mem_filterMap.mp h with ⟨a, _, ha⟩
  cases hd : datesPaths a.sha with
  | none => rw [hd] at ha; cases ha
  | some dpp =>
    rw [hd] at ha
    cases ha
    exact hd

theorem mem_gather_mem_dated {search : String → String → Bool}
    {datesPaths : String → Option (Nat × String)} {listedRemotes overrideRefs : List Ref}
    {wb wt : List String} {rec : FRemote}
    (h : rec ∈ gatherGitInfo search datesPaths listedRemotes overrideRefs wb wt) :
    rec ∈ datedRemotes datesPaths (applyOverrides listedRemotes overrideRefs) := by
  rw [gatherGitInfo] at h
  by_cases hc : (wb.isEmpty && wt.isEmpty) = true
  · simpa [hc] using h
  · rw [if_neg hc, whitelistLoop_eq_filter] at h
    exact (List.mem_filter.mp h).1

/-- C7.  Every record in `gather_git_info`'s output carries, appended to its
`(sha, name, kind)` triple, exactly the date and `conf_rel_path` the
`filter_and_date` mapping returns for its sha; consequently every merged
record whose sha is absent from that mapping is excluded from the output
regardless of whitelist settings. -/
theorem gather_docs_filter_and_dates (search : String → String → Bool)
    (datesPaths : String → Option (Nat × String)) (listedRemotes overrideRefs : List Ref)
    (wb wt : List String) :
    (∀ rec ∈ gatherGitInfo search datesPaths listedRemotes overrideRefs wb wt,
       datesPaths rec.sha = some (rec.date, rec.conf_rel_path)) ∧
    (∀ r ∈ applyOverrides listedRemotes overrideRefs, datesPaths r.sha = none →
       ∀ rec ∈ gatherGitInfo search datesPaths listedRemotes overrideRefs wb wt,
         rec.sha ≠ r.sha) := by
  constructor
  · intro rec hrec
    exact mem_datedRemotes_dates (mem_gather_mem_dated hrec)
  · intro r _ hnone rec hrec heq
    have hsome := mem_datedRemotes_dates (mem_gather_mem_dated hrec)
    rw [heq, hnone] at hsome
    cases hsome

def c7Listed : List Ref := [Ref.mk "s1" "a" "heads", Ref.mk "s2" "b" "tags"]

def c7Dates : String → Option (Nat × String) := fun s =>
  if s = "s1" then some (5, "how/conf.py") else none

/-- Witness for C7: with shas `s1` (dated) and `s2` (absent from the
mapping), the `s1` record is in the output with date 5 and path
`how/conf.py` attached, and no output record has sha `s2`. -/
theorem gather_docs_filter_and_dates_witness :
    FRemote.mk "s1" "a" "heads" 5 "how/conf.py" ∈ gatherGitInfo reSearch c7Dates c7Listed [] [] [] ∧
    c7Dates (FRemote.mk "s1" "a" "heads" 5 "how/conf.py").sha =
      some ((FRemote.mk "s1" "a" "heads" 5 "how/conf.py").date,
            (FRemote.mk "s1" "a" "heads" 5 "how/conf.py").conf_rel_path) ∧
    Ref.mk "s2" "b" "tags" ∈ applyOverrides c7Listed [] ∧
    (∀ rec ∈ gatherGitInfo reSearch c7Dates c7Listed [] [] [],
       rec.sha ≠ (Ref.mk "s2" "b" "tags").sha) :=
  ⟨by decide,
   (gather_docs_filter_and_dates reSearch c7Dates c7Listed [] [] []).1 _ (by decide),
   by decide,
   (gather_docs_filter_and_dates reSearch c7Dates c7Listed [] [] []).2 _ (by decide) (by decide)⟩

/-! ## Ref Discovery: fetch-and-retry of `filter_and_date` (claim C8) -/

/-- C8.  If the first `filter_and_date` call in `gather_git_info` raises a
git error, the function fetches the missing commits and retries exactly
once: the outcome is decided by attempt number 1 (success yields its value,
a second git error yields the handled fatal error), and the result depends
only on the first two attempt outcomes — two oracles agreeing on attempts 0
and 1 yield the same result, so no third attempt is ever consulted. -/
theorem gather_fad_retry_once {α : Type} (a b : Nat → FadResult α) (fetchOk : Bool)
    (h0 : a 0 = FadResult.gitError) (hf : fetchOk = true)
    (hb0 : a 0 = b 0) (hb1 : a 1 = b 1) :
    (∀ d, a 1 = FadResult.ok d → retryStage a fetchOk = StageResult.ok d) ∧
    (a 1 = FadResult.gitError → retryStage a fetchOk = StageResult.handledError) ∧
    retryStage a fetchOk = retryStage b fetchOk := by
  subst hf
  refine ⟨?_, ?_, ?_⟩
  · intro d h1
    rw [retryStage, h0, h1]
    rfl
  · intro h1
    rw [retryStage, h0, h1]
    rfl
  · rw [retryStage, retryStage, ← hb0, ← hb1, h0]

def c8Attempts : Nat → FadResult Nat := fun n =>
  if n = 0 then FadResult.gitError else FadResult.ok 7

/-- Witness for C8: with attempt 0 failing and attempt 1 returning a value,
the stage returns that value, and agreeing oracles give equal results. -/
theorem gather_fad_retry_once_witness :
    c8Attempts 0 = FadResult.gitError ∧
    retryStage c8Attempts true = StageResult.ok 7 ∧
    retryStage c8Attempts true = retryStage c8Attempts true :=
  ⟨by decide,
   (gather_fad_retry_once c8Attempts c8Attempts true (by decide) rfl rfl rfl).1 7 (by decide),
   (gather_fad_retry_once c8Attempts c8Attempts true (by decide) rfl rfl rfl).2.2⟩

/-! ## Worktree Materializer: timestamp repair (claim C4) -/

theorem tsStep_absent (supports : Bool) (st : TsState) (l : WcLine) (f : String)
    (hf : f ∉ st.files) :
    f ∉ (tsStep supports st l).files ∧
    (tsStep supports st l).utimes.filter (fun p => p.1 == f) =
      st.utimes.filter (fun p => p.1 == f) := by
  cases l with
  | blank => exact ⟨hf, rfl⟩
  | ts t => exact ⟨hf, rfl⟩
  | change om nm onf nf =>
    rw [tsStep]
    by_cases hin : nf ∈ st.files
    · rw [if_pos hin]
      have hne : (nf == f) = false := beq_eq_false_iff_ne.mpr (fun he => hf (he ▸ hin))
      refine ⟨not_mem_eraseFirst st.files nf f hf, ?_⟩
      by_cases hsym : nm = symlinkMode
      · rw [if_pos hsym]
        cases supports with
        | true => simp [List.filter_append, hne]
        | false => simp
      · rw [if_neg hsym]
        simp [List.filter_append, hne]
    · rw [if_neg hin]
      exact ⟨hf, rfl⟩

theorem tsRun_absent (supports : Bool) :
    ∀ (lines : List WcLine) (st : TsState) (f : String), f ∉ st.files →
      (tsRun supports st lines).utimes.filter (fun p => p.1 == f) =
        st.utimes.filter (fun p => p.1 == f) ∧
      f ∉ (tsRun supports st lines).files := by
  intro lines
  induction lines with
  | nil => intro st f hf; exact ⟨rfl, hf⟩
  | cons l rest ih =>
    intro st f hf
    rw [tsRun]
    by_cases hemp : st.files.isEmpty = true
    · rw [if_pos hemp]
      exact ⟨rfl, hf⟩
    · rw [if_neg hemp]
      have hstep := tsStep_absent supports st l f hf
      have hrec := ih (tsStep supports st l) f hstep.1
      exact ⟨hrec.1.trans hstep.2, hrec.2⟩

theorem tsRun_firstTouch (supports : Bool) :
    ∀ (lines : List WcLine) (st : TsState) (f : String) (t m : Nat),
      countOcc st.files f = 1 →
      firstTouch f st.mtime lines = some (t, m) → m ≠ symlinkMode →
      (tsRun supports st lines).utimes.filter (fun p => p.1 == f) =
        st.utimes.filter (fun p => p.1 == f) ++ [(f, t)] ∧
      f ∉ (tsRun supports st lines).files := by
  intro lines
  induction lines with
  | nil => intro st f t m _ hft _; rw [firstTouch] at hft; cases hft
  | cons l rest ih =>
    intro st f t m hc hft hm
    have hfmem : f ∈ st.files := mem_of_countOcc_one st.files f hc
    have hemp : ¬ st.files.isEmpty = true := by
      cases hfi : st.files with
      | nil => rw [hfi] at hfmem; cases hfmem
      | cons a l' => simp
    rw [tsRun, if_neg hemp]
    cases l with
    | blank =>
      rw [firstTouch] at hft
      exact ih st f t m hc hft hm
    | ts t' =>
      rw [firstTouch] at hft
      exact ih (TsState.mk st.files st.utimes t') f t m hc hft hm
    | change om nm onf nf =>
      by_cases hnf : nf = f
      · subst hnf
        rw [firstTouch, if_pos rfl] at hft
        have ht : t = st.mtime := by cases hft; rfl
        have hmm : m = nm := by cases hft; rfl
        subst ht
        rw [tsStep, if_pos hfmem, if_neg (hmm ▸ hm)]
        have hzero : countOcc (eraseFirst st.files nf) nf = 0 := by
          have := countOcc_eraseFirst_self st.files nf hfmem
          omega
        have habs : nf ∉ eraseFirst st.files nf := (countOcc_eq_zero_iff _ nf).mp hzero
        have hrec := tsRun_absent supports rest
          (TsState.mk (eraseFirst st.files nf) (st.utimes ++ [(nf, st.mtime)]) st.mtime) nf habs
        refine ⟨hrec.1.trans ?_, hrec.2⟩
        simp [List.filter_append]
      · rw [firstTouch, if_neg hnf] at hft
        rw [tsStep]
        by_cases hin : nf ∈ st.files
        · rw [if_pos hin]
          have hcount : countOcc (eraseFirst st.files nf) f = 1 := by
            rw [countOcc_eraseFirst_ne st.files nf f (fun he => hnf he.symm)]
            exact hc
          have hne : (nf == f) = false := beq_eq_false_iff_ne.mpr hnf
          by_cases hsym : nm = symlinkMode
          · rw [if_pos hsym]
            cases supports with
            | true =>
              have hrec := ih (TsState.mk (eraseFirst st.files nf)
                (st.utimes ++ [(nf, st.mtime)]) st.mtime) f t m hcount hft hm
              refine ⟨hrec.1.trans ?_, hrec.2⟩
              simp [List.filter_append, hne]
            | false =>
              exact ih (TsState.mk (eraseFirst st.files nf) st.utimes st.mtime) f t m
                hcount hft hm
          · rw [if_neg hsym]
            have hrec := ih (TsState.mk (eraseFirst st.files nf)
              (st.utimes ++ [(nf, st.mtime)]) st.mtime) f t m hcount hft hm
            refine ⟨hrec.1.trans ?_, hrec.2⟩
            simp [List.filter_append, hne]
        · rw [if_neg hin]
          exact ih st f t m hc hft hm

/-- C4.  For each exported sha, the timestamp-repair loop sets each tracked
file's mtime to the timestamp of the first (newest-first) history entry
whose change records touch that file's new path, removes the file from the
pending set, and never overwrites the mtime with an older entry's
timestamp: over the whole run, exactly one `os.utime` call is made for the
file, carrying the first-touch timestamp (stated for regular files, whose
mode is not the symlink mode). -/
theorem export_mtime_first_touch (supports : Bool) (fs : List String) (lines : List WcLine)
    (f : String) (t m : Nat) (hc : countOcc fs f = 1)
    (hft : firstTouch f 0 lines = some (t, m)) (hm : m ≠ symlinkMode) :
    (tsRun supports (TsState.mk fs [] 0) lines).utimes.filter (fun p => p.1 == f) = [(f, t)] ∧
    f ∉ (tsRun supports (TsState.mk fs [] 0) lines).files := by
  have h := tsRun_firstTouch supports lines (TsState.mk fs [] 0) f t m hc hft hm
  simpa using h

/-- The spec's timestamp-repair example history, newest first: a commit at
300 touching `fileA`, one at 200 touching `fileA` and `fileB`, one at
100 touching `fileB` (mode 33188 = `0o100644`, a regular file). -/
def c4Lines : List WcLine :=
  [WcLine.ts 300,
   WcLine.change 33188 33188 none "fileA",
   WcLine.blank,
   WcLine.ts 200,
   WcLine.change 33188 33188 none "fileA",
   WcLine.change 33188 33188 none "fileB",
   WcLine.blank,
   WcLine.ts 100,
   WcLine.change 33188 33188 none "fileB"]

/-- Witness for C4, the spec's own example: `fileA`'s mtime is set to 300
and `fileB`'s mtime is set to 200, each exactly once. -/
theorem export_mtime_first_touch_witness :
    countOcc ["fileA", "fileB"] "fileA" = 1 ∧
    firstTouch "fileA" 0 c4Lines = some (300, 33188) ∧
    firstTouch "fileB" 0 c4Lines = some (200, 33188) ∧
    ((tsRun true (TsState.mk ["fileA", "fileB"] [] 0) c4Lines).utimes.filter
        (fun p => p.1 == "fileA") = [("fileA", 300)] ∧
      "fileA" ∉ (tsRun true (TsState.mk ["fileA", "fileB"] [] 0) c4Lines).files) ∧
    ((tsRun true (TsState.mk ["fileA", "fileB"] [] 0) c4Lines).utimes.filter
        (fun p => p.1 == "fileB") = [("fileB", 200)] ∧
      "fileB" ∉ (tsRun true (TsState.mk ["fileA", "fileB"] [] 0) c4Lines).files) :=
  ⟨by decide, by decide, by decide,
   export_mtime_first_touch true ["fileA", "fileB"] c4Lines "fileA" 300 33188
     (by decide) (by decide) (by decide),
   export_mtime_first_touch true ["fileA", "fileB"] c4Lines "fileB" 200 33188
     (by decide) (by decide) (by decide)⟩

/-! ## Config Prober (claim C9) -/

theorem probeGo_spec (readCfg : Remote → Option SphinxCfg) :
    ∀ (snap acc : List Remote),
      (∀ x ∈ snap, x.found_docs = none) → (∀ x ∈ snap, x ∉ acc) →
      probeGo readCfg snap (acc ++ snap) =
        acc ++ snap.filterMap (fun r => (readCfg r).map (setCfg r)) := by
  intro snap
  induction snap with
  | nil => intro acc _ _; simp [probeGo]
  | cons r rest ih =>
    intro acc hdocs hacc
    have hrnacc : r ∉ acc := hacc r (List.mem_cons_self r rest)
    cases hcfg : readCfg r with
    | none =>
      simp only [probeGo, hcfg]
      rw [eraseFirst_append_left acc (r :: rest) r hrnacc, eraseFirst_cons_self]
      rw [ih acc (fun x hx => hdocs x (List.mem_cons_of_mem r hx))
        (fun x hx => hacc x (List.mem_cons_of_mem r hx))]
      simp [List.filterMap_cons, hcfg]
    | some c =>
      simp only [probeGo, hcfg]
      rw [replaceFirst_append_left acc (r :: rest) r (setCfg r c) hrnacc,
        replaceFirst_cons_self]
      have hmid : acc ++ setCfg r c :: rest = (acc ++ [setCfg r c]) ++ rest := by
        simp
      rw [hmid]
      rw [ih (acc ++ [setCfg r c]) (fun x hx => hdocs x (List.mem_cons_of_mem r hx)) ?hnot]
      case hnot =>
        intro x hx hmem
        rcases List.mem_append.mp hmem with hmem | hmem
        · exact hacc x (List.mem_cons_of_mem r hx) hmem
        · have hxd := hdocs x (List.mem_cons_of_mem r hx)
          rw [List.mem_singleton.mp hmem] at hxd
          simp [setCfg] at hxd
      simp [List.filterMap_cons, hcfg]

theorem probeConfigs_eq (readCfg : Remote → Option SphinxCfg) (registry : List Remote)
    (h : ∀ x ∈ registry, x.found_docs = none) :
    probeConfigs readCfg registry =
      registry.filterMap (fun r => (readCfg r).map (setCfg r)) := by
  have hgo := probeGo_spec readCfg registry [] h (fun x _ hx => (List.not_mem_nil x) hx)
  simpa [probeConfigs] using hgo

/-- C9.  In `pre_build`'s config-probing loop, every record whose
`read_config` call raises a handled error is removed from the registry
while probing continues with the remaining records, and every surviving
record has its `found_docs` and `master_doc` fields set from the
configuration read for it. -/
theorem pre_build_config_probe_drops_failures (readCfg : Remote → Option SphinxCfg)
    (registry : List Remote) (h : ∀ x ∈ registry, x.found_docs = none) :
    probeConfigs readCfg registry =
      registry.filterMap (fun r => (readCfg r).map (setCfg r)) ∧
    (∀ r ∈ registry, readCfg r = none → r ∉ probeConfigs readCfg registry) ∧
    (∀ x ∈ probeConfigs readCfg registry, ∃ r ∈ registry, ∃ c,
       readCfg r = some c ∧ x = setCfg r c ∧
       x.found_docs = some c.found_docs ∧ x.master_doc = some c.master_doc) := by
  have heq := probeConfigs_eq readCfg registry h
  refine ⟨heq, ?_, ?_⟩
  · intro r hr _ hmem
    rw [heq] at hmem
    rcases List.mem_filterMap.mp hmem with ⟨a, _, ha⟩
    cases hca : readCfg a with
    | none => rw [hca] at ha; cases ha
    | some c =>
      rw [hca] at ha
      have hrd := h r hr
      cases ha
      simp [setCfg] at hrd
  · intro x hx
    rw [heq] at hx
    rcases List.mem_filterMap.mp hx with ⟨a, hamem, ha⟩
    cases hca : readCfg a with
    | none => rw [hca] at ha; cases ha
    | some c =>
      rw [hca] at ha
      cases ha
      exact ⟨a, hamem, c, hca, rfl, rfl, rfl⟩

def c9ReadCfg : Remote → Option SphinxCfg := fun r =>
  if r.name = "bad" then none else some (SphinxCfg.mk ["index"] "index")

def c9Reg : List Remote :=
  [mkRemote "s1" "good" "heads" 1 "docs/conf.py" "",
   mkRemote "s2" "bad" "tags" 2 "docs/conf.py" ""]

/-- Witness for C9: with `good`'s configuration readable and `bad`'s raising
a handled error, the probed registry is exactly the enriched `good` record,
and the `bad` record is gone. -/
theorem pre_build_config_probe_drops_failures_witness :
    (∀ x ∈ c9Reg, x.found_docs = none) ∧
    probeConfigs c9ReadCfg c9Reg =
      c9Reg.filterMap (fun r => (c9ReadCfg r).map (setCfg r)) ∧
    mkRemote "s2" "bad" "tags" 2 "docs/conf.py" "" ∉ probeConfigs c9ReadCfg c9Reg ∧
    probeConfigs c9ReadCfg c9Reg =
      [setCfg (mkRemote "s1" "good" "heads" 1 "docs/conf.py" "")
        (SphinxCfg.mk ["index"] "index")] :=
  ⟨by decide,
   (pre_build_config_probe_drops_failures c9ReadCfg c9Reg (by decide)).1,
   (pre_build_config_probe_drops_failures c9ReadCfg c9Reg (by decide)).2.1 _
     (by decide) (by decide),
   by decide⟩

/-! ## Build Orchestrator lemmas (claims C2, C3, C10) -/

theorem sweepRefs_all_ok (f : Remote → Bool) :
    ∀ (snap live : List Remote), (∀ x ∈ snap, f x = true) →
      sweepRefs f snap live = (snap.map subEvent, live, false) := by
  intro snap
  induction snap with
  | nil => intro live _; rfl
  | cons r rest ih =>
    intro live hall
    have hr : f r = true := hall r (List.mem_cons_self r rest)
    simp only [sweepRefs, hr, if_true, ih live (fun x hx => hall x (List.mem_cons_of_mem r hx)),
      List.map_cons]

theorem sweepRefs_break (f : Remote → Bool) :
    ∀ (pre : List Remote) (r : Remote) (post live : List Remote),
      (∀ x ∈ pre, f x = true) → f r = false →
      sweepRefs f (pre ++ r :: post) live =
        (pre.map subEvent ++ [subEvent r], eraseFirst live r, true) := by
  intro pre
  induction pre with
  | nil =>
    intro r post live _ hr
    simp only [List.nil_append, sweepRefs, hr, List.map_nil, Bool.false_eq_true, if_false]
  | cons p pre' ih =>
    intro r post live hpre hr
    have hp : f p = true := hpre p (List.mem_cons_self p pre')
    have ihh := ih r post live (fun x hx => hpre x (List.mem_cons_of_mem p hx)) hr
    simp only [List.cons_append]
    simp only [sweepRefs]
    rw [if_pos hp, ihh]
    simp

theorem sweepRefs_broke_inv (f : Remote → Bool) :
    ∀ (snap live : List Remote) (evs : List BEvent) (live2 : List Remote),
      sweepRefs f snap live = (evs, live2, true) →
      ∃ r ∈ snap, f r = false ∧ live2 = eraseFirst live r := by
  intro snap
  induction snap with
  | nil =>
    intro live evs live2 h
    rw [sweepRefs] at h
    cases h
  | cons r rest ih =>
    intro live evs live2 h
    rw [sweepRefs] at h
    by_cases hf : f r = true
    · rw [if_pos hf] at h
      rcases hrec : sweepRefs f rest live with ⟨evs', live2', broke'⟩
      rw [hrec] at h
      simp only [Prod.mk.injEq] at h
      rw [h.2.2] at hrec
      rcases ih live evs' live2' hrec with ⟨x, hx, hfx, hlx⟩
      refine ⟨x, List.mem_cons_of_mem r hx, hfx, ?_⟩
      rw [← h.2.1]
      exact hlx
    · rw [if_neg hf] at h
      simp only [Prod.mk.injEq] at h
      exact ⟨r, List.mem_cons_self r rest, Bool.eq_false_iff.mpr hf, h.2.1.symm⟩

theorem sweepRefs_no_break_inv (f : Remote → Bool) :
    ∀ (snap live : List Remote) (evs : List BEvent) (live2 : List Remote),
      sweepRefs f snap live = (evs, live2, false) →
      live2 = live ∧ ∀ x ∈ snap, f x = true := by
  intro snap
  induction snap with
  | nil =>
    intro live evs live2 h
    rw [sweepRefs] at h
    simp only [Prod.mk.injEq] at h
    exact ⟨h.2.1.symm, fun x hx => absurd hx (List.not_mem_nil x)⟩
  | cons r rest ih =>
    intro live evs live2 h
    rw [sweepRefs] at h
    by_cases hf : f r = true
    · rw [if_pos hf] at h
      rcases hrec : sweepRefs f rest live with ⟨evs', live2', broke'⟩
      rw [hrec] at h
      simp only [Prod.mk.injEq] at h
      rw [h.2.2] at hrec
      rcases ih live evs' live2' hrec with ⟨hl, hall⟩
      refine ⟨h.2.1 ▸ hl, ?_⟩
      intro x hx
      rcases List.mem_cons.mp hx with hx | hx
      · exact hx ▸ hf
      · exact hall x hx
    · rw [if_neg hf] at h
      simp only [Prod.mk.injEq] at h
      exact absurd h.2.2 (by simp)

theorem buildAllFuel_irrel (b : Remote → Bool → Bool) (rootRef : String) :
    ∀ (n : Nat) (reg : List Remote) (m : Nat), reg.length < n → reg.length < m →
      buildAllFuel b rootRef n reg = buildAllFuel b rootRef m reg := by
  intro n
  induction n with
  | zero => intro reg m hn _; omega
  | succ n ih =>
    intro reg m hn hm
    cases m with
    | zero => omega
    | succ m =>
      cases hfind : findByName reg rootRef with
      | none => simp only [buildAllFuel, hfind]
      | some root =>
        simp only [buildAllFuel, hfind]
        by_cases hok : b root true = true
        · rw [if_pos hok, if_pos hok]
          rcases hsw : sweepRefs (fun r => b r false) reg reg with ⟨evs, live2, broke⟩
          cases broke with
          | false => rfl
          | true =>
            rcases sweepRefs_broke_inv _ reg reg evs live2 hsw with ⟨x, hx, _, hlx⟩
            have hlen : live2.length < reg.length := by
              rw [hlx]
              exact eraseFirst_length_lt reg x hx
            have h1 : live2.length < n := by omega
            have h2 : live2.length < m := by omega
            simp only [ih live2 m h1 h2]
        · rw [if_neg hok, if_neg hok]

theorem eraseFirst_filter_of_false {α : Type} [DecidableEq α] (p : α → Bool) :
    ∀ (l : List α) (a : α), p a = false → (eraseFirst l a).filter p = l.filter p := by
  intro l a hp
  induction l with
  | nil => rfl
  | cons x xs ih =>
    by_cases hx : x = a
    · rw [eraseFirst, if_pos hx, List.filter_cons, hx, hp]
      simp
    · rw [eraseFirst, if_neg hx, List.filter_cons, List.filter_cons, ih]

theorem buildAllFuel_ok_filter (b : Remote → Bool → Bool) (rootRef : String) :
    ∀ (n : Nat) (reg final : List Remote),
      (buildAllFuel b rootRef n reg).2 = BResult.ok final →
      final = reg.filter (fun x => b x false) := by
  intro n
  induction n with
  | zero => intro reg final h; cases h
  | succ n ih =>
    intro reg final h
    cases hfind : findByName reg rootRef with
    | none =>
      simp only [buildAllFuel, hfind] at h
      exact BResult.noConfusion h
    | some root =>
      simp only [buildAllFuel, hfind] at h
      by_cases hok : b root true = true
      · rw [if_pos hok] at h
        rcases hsw : sweepRefs (fun r => b r false) reg reg with ⟨evs, live2, broke⟩
        rw [hsw] at h
        cases broke with
        | false =>
          dsimp only at h
          have hfin : live2 = final := by
            cases h
            rfl
          rcases sweepRefs_no_break_inv _ reg reg evs live2 hsw with ⟨hl, hall⟩
          rw [← hfin, hl]
          exact (List.filter_eq_self.mpr hall).symm
        | true =>
          dsimp only at h
          rcases sweepRefs_broke_inv _ reg reg evs live2 hsw with ⟨x, hx, hfx, hlx⟩
          rw [ih live2 final h, hlx, eraseFirst_filter_of_false _ reg x hfx]
      · rw [if_neg hok] at h
        exact BResult.noConfusion h

theorem buildAllFuel_clean (b : Remote → Bool → Bool) (rootRef : String) (n : Nat)
    (reg : List Remote) (root : Remote)
    (hroot : findByName reg rootRef = some root) (hok : b root true = true)
    (hall : ∀ x ∈ reg, b x false = true) :
    buildAllFuel b rootRef (n + 1) reg =
      (BEvent.mk root.name BTarget.dest true :: reg.map subEvent, BResult.ok reg) := by
  simp only [buildAllFuel, hroot]
  rw [if_pos hok, sweepRefs_all_ok (fun r => b r false) reg reg hall]

theorem buildAllFuel_break (b : Remote → Bool → Bool) (rootRef : String) (n : Nat)
    (pre post : List Remote) (r root : Remote)
    (hroot : findByName (pre ++ r :: post) rootRef = some root)
    (hok : b root true = true) (hpre : ∀ x ∈ pre, b x false = true)
    (hr : b r false = false) :
    buildAllFuel b rootRef (n + 1) (pre ++ r :: post) =
      (BEvent.mk root.name BTarget.dest true ::
        ((pre.map subEvent ++ [subEvent r]) ++ (buildAllFuel b rootRef n (pre ++ post)).1),
       (buildAllFuel b rootRef n (pre ++ post)).2) := by
  have hrpre : r ∉ pre := by
    intro hm
    have htr := hpre r hm
    rw [htr] at hr
    cases hr
  have herase : eraseFirst (pre ++ r :: post) r = pre ++ post := by
    rw [eraseFirst_append_left pre (r :: post) r hrpre, eraseFirst_cons_self]
  have hsw := sweepRefs_break (fun x => b x false) pre r post (pre ++ r :: post) hpre hr
  rw [herase] at hsw
  simp only [buildAllFuel, hroot]
  rw [if_pos hok, hsw]

theorem findByName_erase_middle :
    ∀ (pre : List Remote) (r : Remote) (post : List Remote) (nm : String) (root : Remote),
      findByName (pre ++ r :: post) nm = some root → r.name ≠ nm →
      findByName (pre ++ post) nm = some root := by
  intro pre
  induction pre with
  | nil =>
    intro r post nm root h hnr
    rw [List.nil_append] at h
    rw [findByName, if_neg hnr] at h
    exact h
  | cons p pre' ih =>
    intro r post nm root h hnr
    rw [List.cons_append, findByName] at h
    rw [List.cons_append, findByName]
    by_cases hp : p.name = nm
    · rw [if_pos hp] at h ⊢
      exact h
    · rw [if_neg hp] at h ⊢
      exact ih r post nm root h hnr

/-! ## Build Orchestrator: claim theorems -/

/-- C2 (counterexample).  The claim that only non-root records are built
into `destination/<root_dir>` and that the root record is never built a
second time into its own subdirectory is false on the code: with root
`master` (root_dir `master`) and one other version, the build trace
contains a non-root-flagged build of `master` into the `master`
subdirectory — the inner loop of `build_all` iterates over ALL records,
the root included. -/
theorem build_all_root_rebuilt_into_subdir :
    BEvent.mk "master" (BTarget.sub "master") false ∈
      (buildAllGo buildOkAll "master" [rootRec, v1Rec]).1 := by
  decide

/-- C2 (amended).  In every sweep of `build_all`, after the root record is
built directly into `destination` with the is-root flag set, the inner loop
builds every registry record — including the root record a second time —
into `destination/<root_dir>` with the flag off; so on a clean sweep the
destination contains the root version's output directly plus one
subdirectory per version, the root version included. -/
theorem build_all_sweep_builds_every_record (b : Remote → Bool → Bool) (rootRef : String)
    (reg : List Remote) (root : Remote)
    (hroot : findByName reg rootRef = some root) (hok : b root true = true)
    (hall : ∀ x ∈ reg, b x false = true) :
    buildAllGo b rootRef reg =
      (BEvent.mk root.name BTarget.dest true :: reg.map subEvent, BResult.ok reg) := by
  rw [buildAllGo]
  exact buildAllFuel_clean b rootRef reg.length reg root hroot hok hall

/-- Witness for the amended C2: a two-record registry is swept as one root
build into destination followed by one subdirectory build per record. -/
theorem build_all_sweep_builds_every_record_witness :
    findByName [rootRec, v1Rec] "master" = some rootRec ∧
    buildOkAll rootRec true = true ∧
    (∀ x ∈ [rootRec, v1Rec], buildOkAll x false = true) ∧
    buildAllGo buildOkAll "master" [rootRec, v1Rec] =
      (BEvent.mk rootRec.name BTarget.dest true :: [rootRec, v1Rec].map subEvent,
       BResult.ok [rootRec, v1Rec]) :=
  ⟨by decide, by decide, by decide,
   build_all_sweep_builds_every_record buildOkAll "master" [rootRec, v1Rec] rootRec
     (by decide) (by decide) (by decide)⟩

/-- C3.  In `build_all`, if building some non-root record raises a handled
error, that record is removed from the registry, the remaining untried
records of the current sweep are skipped, and the whole sweep restarts —
the run continues exactly as a fresh `build_all` on the registry without
the failed record, whose trace again starts with a root rebuild; moreover
any normal completion returns exactly the records whose builds succeed. -/
theorem build_all_failure_restarts_sweep (b : Remote → Bool → Bool) (rootRef : String)
    (pre post : List Remote) (r root : Remote)
    (hroot : findByName (pre ++ r :: post) rootRef = some root)
    (hok : b root true = true)
    (hpre : ∀ x ∈ pre, b x false = true)
    (hr : b r false = false)
    (hnr : r.name ≠ rootRef) :
    buildAllGo b rootRef (pre ++ r :: post) =
      (BEvent.mk root.name BTarget.dest true ::
        ((pre.map subEvent ++ [subEvent r]) ++ (buildAllGo b rootRef (pre ++ post)).1),
       (buildAllGo b rootRef (pre ++ post)).2) ∧
    (∃ evs2, (buildAllGo b rootRef (pre ++ post)).1 =
       BEvent.mk root.name BTarget.dest true :: evs2) ∧
    (∀ final, (buildAllGo b rootRef (pre ++ r :: post)).2 = BResult.ok final →
       final = (pre ++ r :: post).filter (fun x => b x false)) := by
  have hfind2 := findByName_erase_middle pre r post rootRef root hroot hnr
  refine ⟨?_, ?_, ?_⟩
  · have hirrel := buildAllFuel_irrel b rootRef (pre ++ r :: post).length (pre ++ post)
      ((pre ++ post).length + 1) (by simp) (by omega)
    simp only [buildAllGo]
    rw [buildAllFuel_break b rootRef (pre ++ r :: post).length pre post r root hroot hok
      hpre hr, hirrel]
  · simp only [buildAllGo, buildAllFuel, hfind2]
    rw [if_pos hok]
    rcases hsw2 : sweepRefs (fun r => b r false) (pre ++ post) (pre ++ post)
      with ⟨evs, live2, broke⟩
    cases broke with
    | false => exact ⟨evs, rfl⟩
    | true =>
      exact ⟨evs ++ (buildAllFuel b rootRef (pre ++ post).length live2).1, rfl⟩
  · intro final hfin
    rw [buildAllGo] at hfin
    exact buildAllFuel_ok_filter b rootRef _ _ final hfin

/-- Witness for C3, the spec's restart example: with root plus `v1`, `v2`,
`v3` and only `v2` failing, the sweep stops at `v2` (skipping `v3`),
restarts on the registry without `v2`, and completes with final registry
root, `v1`, `v3`. -/
theorem build_all_failure_restarts_sweep_witness :
    findByName ([rootRec, v1Rec] ++ v2Rec :: [v3Rec]) "master" = some rootRec ∧
    buildOkNoV2 rootRec true = true ∧
    (∀ x ∈ [rootRec, v1Rec], buildOkNoV2 x false = true) ∧
    buildOkNoV2 v2Rec false = false ∧
    v2Rec.name ≠ "master" ∧
    buildAllGo buildOkNoV2 "master" ([rootRec, v1Rec] ++ v2Rec :: [v3Rec]) =
      (BEvent.mk rootRec.name BTarget.dest true ::
        (([rootRec, v1Rec].map subEvent ++ [subEvent v2Rec]) ++
          (buildAllGo buildOkNoV2 "master" ([rootRec, v1Rec] ++ [v3Rec])).1),
       (buildAllGo buildOkNoV2 "master" ([rootRec, v1Rec] ++ [v3Rec])).2) ∧
    (buildAllGo buildOkNoV2 "master" ([rootRec, v1Rec] ++ v2Rec :: [v3Rec])).2 =
      BResult.ok [rootRec, v1Rec, v3Rec] :=
  ⟨by decide, by decide, by decide, by decide, by decide,
   (build_all_failure_restarts_sweep buildOkNoV2 "master" [rootRec, v1Rec] [v3Rec] v2Rec
     rootRec (by decide) (by decide) (by decide) (by decide) (by decide)).1,
   by decide⟩

/-- C10.  If building the root record directly into destination raises a
handled error, `build_all` does not catch it: the error propagates with the
registry unchanged, and no further builds of that sweep are attempted (the
trace holds only the failed root attempt). -/
theorem build_all_root_failure_propagates (b : Remote → Bool → Bool) (rootRef : String)
    (reg : List Remote) (root : Remote)
    (hroot : findByName reg rootRef = some root) (hfail : b root true = false) :
    buildAllGo b rootRef reg =
      ([BEvent.mk root.name BTarget.dest true], BResult.err BErr.handled reg) := by
  have hne : ¬ b root true = true := by simp [hfail]
  rw [buildAllGo]
  simp only [buildAllFuel, hroot]
  rw [if_neg hne]

/-- Witness for C10: with an oracle failing exactly the is-root build, the
run stops after the root attempt with the two-record registry intact. -/
theorem build_all_root_failure_propagates_witness :
    findByName [rootRec, v1Rec] "master" = some rootRec ∧
    buildOkRootFails rootRec true = false ∧
    buildAllGo buildOkRootFails "master" [rootRec, v1Rec] =
      ([BEvent.mk rootRec.name BTarget.dest true],
       BResult.err BErr.handled [rootRec, v1Rec]) :=
  ⟨by decide, by decide,
   build_all_root_failure_propagates buildOkRootFails "master" [rootRec, v1Rec] rootRec
     (by decide) (by decide)⟩

end SCV
